import Mathlib

/-!
Shallow embedding of `pagerank.py` (the PageRank ranking engine: transition
model, random-walk sampler, iterative solver and reverse-link index), together
with theorems checking the natural-language specification against it.

Modelling conventions:
* A Python dict is an association list `List (String × β)` in insertion order;
  duplicate keys cannot arise in Python, so well-formedness hypotheses carry
  `Nodup` of the key list where a proof needs it.
* A Python set of strings is a `List String` without duplicates (hypothesis
  `Nodup` where needed); iteration order of a set is unspecified in Python, and
  every use below (membership, length, summation) is order-independent.
* Python floats are modelled as exact rationals `ℚ`.
* A Python exception that would escape the function (KeyError on a missing dict
  key, IndexError of `random.choice` on an empty list, ZeroDivisionError) is
  `none`; a normal return is `some`.
* The random source of the sampler is an oracle: `initIx` models
  `random.choice` over the key list and `oracle i` models the index drawn by
  `random.choices` at step `i` (taken modulo the population size).
-/

abbrev Corpus := List (String × List String)

/-- Keys of a Python dict, in insertion order (`list(d)`). -/
def keysOf {β : Type} (m : List (String × β)) : List String := m.map Prod.fst

/-- Python dict lookup `m[k]`: `some` the value of the first entry whose key is
`k`, `none` when no entry matches (KeyError). -/
def lookupKey {β : Type} : List (String × β) → String → Option β
  | [], _ => none
  | kv :: rest, k => if kv.1 = k then some kv.2 else lookupKey rest k

/-- Rewrite the value stored at key `k` by `f`, leaving other entries alone. -/
def mapAtKey {β : Type} (m : List (String × β)) (k : String) (f : β → β) :
    List (String × β) :=
  m.map fun kv => if kv.1 = k then (kv.1, f kv.2) else kv

/-- Python `m[k] += v` on a numeric dict: KeyError (`none`) when `k` is not a
key, otherwise the updated dict. -/
def addToKey (m : List (String × ℚ)) (k : String) (v : ℚ) :
    Option (List (String × ℚ)) :=
  match lookupKey m k with
  | none => none
  | some _ => some (mapAtKey m k (fun w => w + v))

/-- Python `m[k] = v`: overwrite when the key exists, else append a new entry
(insertion order puts new keys at the end). -/
def setKey {β : Type} (m : List (String × β)) (k : String) (v : β) :
    List (String × β) :=
  match lookupKey m k with
  | none => m ++ [(k, v)]
  | some _ => mapAtKey m k (fun _ => v)

/-- Sum of the values of a numeric dict. -/
def sumVals (m : List (String × ℚ)) : ℚ := (m.map Prod.snd).sum

/-- Python `abs` on our rational model of floats. -/
def absQ (x : ℚ) : ℚ := if x < 0 then -x else x

/-- Well-formedness of a corpus as `pagerank.py` receives it from `crawl`:
dict keys are distinct (automatic for a Python dict), each outbound set has no
duplicates (automatic for a Python set) and every link target is itself a key
of the corpus (`crawl` filters links to pages outside the corpus). -/
def WF (c : Corpus) : Prop :=
  (keysOf c).Nodup ∧ ∀ kv ∈ c, kv.2.Nodup ∧ ∀ l ∈ kv.2, l ∈ keysOf c

instance (c : Corpus) : Decidable (WF c) := by
  unfold WF; infer_instance

/-- Embedding of `transition_model(corpus, page, damping_factor)`
(`pagerank.py` lines 52-77): `corpus[page]` raises KeyError when `page` is
missing; otherwise every page starts at `(1 - d)/N`, and then either `d/N` is
added to every page (no outbound links) or `d/link_count` is added to each
linked page, where `model[link] += ...` raises KeyError on a dangling link. -/
def transition_model (corpus : Corpus) (page : String) (d : ℚ) :
    Option (List (String × ℚ)) :=
  match lookupKey corpus page with
  | none => none
  | some links =>
    let N : ℚ := corpus.length
    let model := corpus.map (fun kv => (kv.1, (1 - d) / N))
    if links.length < 1 then
      some (model.map (fun kv => (kv.1, kv.2 + d / N)))
    else
      links.foldlM (fun m link => addToKey m link (d / (links.length : ℚ))) model

/-- One step of the sampling loop body (`pagerank.py` lines 99-110): compute
the transition model for the current page, draw the next page from the model's
key list at the oracle's index, increment its counter. `random.choices` on an
empty population raises (`none`). -/
def sampleStep (corpus : Corpus) (d : ℚ) (oracle : Nat → Nat) (i : Nat)
    (st : String × List (String × ℚ)) : Option (String × List (String × ℚ)) :=
  match transition_model corpus st.1 d with
  | none => none
  | some model =>
    let pageList := keysOf model
    match pageList.get? (oracle i % pageList.length) with
    | none => none
    | some next =>
      match addToKey st.2 next 1 with
      | none => none
      | some pr => some (next, pr)

/-- The `for i in range(n)` loop of `sample_pagerank`, with `steps` iterations
left and `i` the current step index. -/
def sampleLoop (corpus : Corpus) (d : ℚ) (oracle : Nat → Nat) :
    Nat → Nat → (String × List (String × ℚ)) →
    Option (String × List (String × ℚ))
  | 0, _, st => some st
  | steps + 1, i, st =>
    match sampleStep corpus d oracle i st with
    | none => none
    | some st2 => sampleLoop corpus d oracle steps (i + 1) st2

/-- Embedding of `sample_pagerank(corpus, damping_factor, n)` (`pagerank.py`
lines 80-116): counters start at 0, `random.choice(list(corpus))` picks the
start page (IndexError on an empty corpus), the chain walks `n` steps (none
when `n <= 0`, as `range(n)` is then empty), and finally every counter is
divided by `n` — a ZeroDivisionError (`none`) when `n = 0`. -/
def sample_pagerank (corpus : Corpus) (d : ℚ) (n : Int) (initIx : Nat)
    (oracle : Nat → Nat) : Option (List (String × ℚ)) :=
  let pagerank := corpus.map (fun kv => (kv.1, (0 : ℚ)))
  match (keysOf corpus).get? (initIx % corpus.length) with
  | none => none
  | some start =>
    match sampleLoop corpus d oracle n.toNat 0 (start, pagerank) with
    | none => none
    | some st =>
      if n = 0 then none
      else some (st.2.map (fun kv => (kv.1, kv.2 / (n : ℚ))))

/-- Embedding of the sink rewriting loop of `iterate_pagerank` (`pagerank.py`
lines 134-136): every page with an empty outbound set has it rebound, in the
caller's dict, to the set of all pages. Only values change, never keys. -/
def normalize_corpus (c : Corpus) : Corpus :=
  c.map fun kv => if kv.2 = [] then (kv.1, keysOf c) else kv

/-- Python `links_to_page[link].add(page)`: KeyError (`none`) when `link` is
not a key; adding an element already present is a no-op. -/
def addOrigin (m : List (String × List String)) (link page : String) :
    Option (List (String × List String)) :=
  match lookupKey m link with
  | none => none
  | some _ =>
    some (mapAtKey m link (fun s => if page ∈ s then s else s ++ [page]))

/-- Embedding of `crawl_origin(corpus)` (`pagerank.py` lines 165-181): start
every page at the empty origin set, then for each page add it as an origin of
each of its link targets. -/
def crawl_origin (c : Corpus) : Option (List (String × List String)) :=
  let init := c.map (fun kv => (kv.1, ([] : List String)))
  c.foldlM (fun m kv => kv.2.foldlM (fun m2 link => addOrigin m2 link kv.1) m)
    init

/-- One summand `pagerank[origin] / len(corpus[origin])` of the solver's inner
loop (`pagerank.py` line 150): KeyError on either lookup, ZeroDivisionError
(`none`) when the out-degree is zero. -/
def origin_term (c : Corpus) (pr : List (String × ℚ)) (origin : String) :
    Option ℚ :=
  match lookupKey pr origin, lookupKey c origin with
  | some r, some ls => if ls.length = 0 then none else some (r / (ls.length : ℚ))
  | _, _ => none

/-- The accumulation of `second_sum` over the origins of one page
(`pagerank.py` lines 147-150). -/
def second_sum (c : Corpus) (pr : List (String × ℚ)) (origins : List String) :
    Option ℚ :=
  origins.foldlM (fun acc o => (origin_term c pr o).map (fun t => acc + t)) 0

/-- One full round of the solver (`pagerank.py` lines 143-151):
`pagerank_working` starts as a copy of `pagerank` and every page's entry is
rewritten to `(1-d)/N + d * second_sum`, all summands read from the previous
vector `pr`. -/
def iterate_step (c : Corpus) (lt : List (String × List String)) (d : ℚ)
    (pr : List (String × ℚ)) : Option (List (String × ℚ)) :=
  c.foldlM
    (fun working kv =>
      match lookupKey lt kv.1 with
      | none => none
      | some origins =>
        match second_sum c pr origins with
        | none => none
        | some s =>
          some (setKey working kv.1 ((1 - d) / (c.length : ℚ) + d * s)))
    pr

/-- The convergence measure of `iterate_pagerank` (`pagerank.py` lines
154-157): maximum of `abs(pagerank[page] - pagerank_working[page])` over the
pages of the working vector, starting from 0. -/
def max_diff (pr working : List (String × ℚ)) : Option ℚ :=
  working.foldlM
    (fun md kv =>
      match lookupKey pr kv.1 with
      | none => none
      | some old => some (if absQ (old - kv.2) > md then absQ (old - kv.2) else md))
    0

/-- The `while True` loop of `iterate_pagerank` (`pagerank.py` lines 142-161),
with explicit fuel standing for the unbounded iteration: on the round where
`max_diff <= 0.001` the loop breaks before `pagerank = pagerank_working` runs,
so the vector `pr` that entered the round is returned. -/
def iterate_loop (c : Corpus) (lt : List (String × List String)) (d : ℚ) :
    Nat → List (String × ℚ) → Option (List (String × ℚ))
  | 0, _ => none
  | fuel + 1, pr =>
    match iterate_step c lt d pr with
    | none => none
    | some working =>
      match max_diff pr working with
      | none => none
      | some md =>
        if md ≤ 1 / 1000 then some pr
        else iterate_loop c lt d fuel working

/-- The initial rank vector of the solver (`pagerank.py` lines 129-131):
every page of the (not yet normalized) corpus at `1/len(corpus)`. -/
def init_pagerank (c : Corpus) : List (String × ℚ) :=
  c.map fun kv => (kv.1, 1 / (c.length : ℚ))

/-- Embedding of `iterate_pagerank(corpus, damping_factor)` (`pagerank.py`
lines 119-163). The first component is the returned rank vector (`none` for an
escaped exception or exhausted fuel); the second component is the state of the
caller's `corpus` dict after the call — the sink rewriting at lines 134-136
mutates it in place, so the caller is left holding the normalized corpus. -/
def iterate_pagerank (corpus : Corpus) (d : ℚ) (fuel : Nat) :
    Option (List (String × ℚ)) × Corpus :=
  let pagerank := init_pagerank corpus
  let corpus2 := normalize_corpus corpus
  match crawl_origin corpus2 with
  | none => (none, corpus2)
  | some lt => (iterate_loop corpus2 lt d fuel pagerank, corpus2)

/-- The per-page update value exactly as §4.4 of the specification words it:
`(1 - d)/N + d * Σ over origin o that links to p of rank(o)_prev / outdegree(o)`,
with the origins read off the forward graph `c`. Stated over the keys of `c`
filtered to the pages linking to `p`, so it can be compared with the reverse
index the solver actually uses. -/
def specNewRank (c : Corpus) (d : ℚ) (pr : List (String × ℚ)) (p : String) : ℚ :=
  (1 - d) / (c.length : ℚ) +
    d * ((((keysOf c).filter (fun o => decide (p ∈ (lookupKey c o).getD []))).map
      (fun o => (lookupKey pr o).getD 0 / (((lookupKey c o).getD []).length : ℚ))).sum)

/-! ### Association-list lemmas -/

@[simp]
theorem keysOf_nil {β : Type} : keysOf ([] : List (String × β)) = [] := rfl

@[simp]
theorem keysOf_cons {β : Type} (kv : String × β) (m : List (String × β)) :
    keysOf (kv :: m) = kv.1 :: keysOf m := rfl

@[simp]
theorem keysOf_append {β : Type} (m m2 : List (String × β)) :
    keysOf (m ++ m2) = keysOf m ++ keysOf m2 := by
  simp [keysOf]

@[simp]
theorem sumVals_nil : sumVals [] = 0 := rfl

@[simp]
theorem sumVals_cons (kv : String × ℚ) (m : List (String × ℚ)) :
    sumVals (kv :: m) = kv.2 + sumVals m := by
  simp [sumVals]

theorem lookupKey_eq_none {β : Type} (m : List (String × β)) (k : String) :
    lookupKey m k = none ↔ k ∉ keysOf m := by
  induction m with
  | nil => simp [lookupKey]
  | cons kv rest ih =>
    by_cases h : kv.1 = k
    · subst h; simp [lookupKey]
    · simp [lookupKey, h, ih, Ne.symm h]

theorem lookupKey_isSome {β : Type} (m : List (String × β)) (k : String) :
    (lookupKey m k).isSome ↔ k ∈ keysOf m := by
  rcases h : lookupKey m k with _ | v
  · rw [lookupKey_eq_none] at h; simp [h]
  · have : k ∈ keysOf m := by
      by_contra hk
      rw [← lookupKey_eq_none] at hk
      rw [h] at hk; cases hk
    simp [this]

theorem lookupKey_mem {β : Type} {m : List (String × β)} {k : String} {v : β}
    (h : lookupKey m k = some v) : (k, v) ∈ m := by
  induction m with
  | nil => cases h
  | cons kv rest ih =>
    by_cases hk : kv.1 = k
    · subst hk
      simp [lookupKey] at h
      subst h
      exact List.mem_cons_self _ _
    · simp [lookupKey, hk] at h
      exact List.mem_cons_of_mem _ (ih h)

theorem mem_keysOf_of_lookupKey {β : Type} {m : List (String × β)} {k : String}
    {v : β} (h : lookupKey m k = some v) : k ∈ keysOf m := by
  rw [← lookupKey_isSome, h]; rfl

theorem lookupKey_of_mem_nodup {β : Type} {m : List (String × β)}
    (hnd : (keysOf m).Nodup) {kv : String × β} (h : kv ∈ m) :
    lookupKey m kv.1 = some kv.2 := by
  induction m with
  | nil => cases h
  | cons hd rest ih =>
    rcases List.mem_cons.mp h with rfl | h2
    · simp [lookupKey]
    · have hne : hd.1 ≠ kv.1 := by
        intro he
        have : kv.1 ∈ keysOf rest := List.mem_map_of_mem Prod.fst h2
        rw [← he] at this
        exact (List.nodup_cons.mp hnd).1 this
      simp only [lookupKey, hne, if_false]
      exact ih (List.nodup_cons.mp hnd).2 h2

theorem lookupKey_mapVal {β γ : Type} (m : List (String × β)) (f : String → β → γ)
    (k : String) :
    lookupKey (m.map fun kv => (kv.1, f kv.1 kv.2)) k = (lookupKey m k).map (f k) := by
  induction m with
  | nil => rfl
  | cons kv rest ih =>
    by_cases h : kv.1 = k
    · subst h; simp [lookupKey]
    · simp [lookupKey, h, ih]

theorem keysOf_mapVal {β γ : Type} (m : List (String × β)) (f : String → β → γ) :
    keysOf (m.map fun kv => (kv.1, f kv.1 kv.2)) = keysOf m := by
  induction m with
  | nil => rfl
  | cons kv rest ih => simp [keysOf]

@[simp]
theorem keysOf_mapAtKey {β : Type} (m : List (String × β)) (k : String) (f : β → β) :
    keysOf (mapAtKey m k f) = keysOf m := by
  induction m with
  | nil => rfl
  | cons kv rest ih =>
    by_cases h : kv.1 = k
    · simp [mapAtKey, keysOf, h] at ih ⊢; exact ih
    · simp [mapAtKey, keysOf, h] at ih ⊢; exact ih

theorem lookupKey_mapAtKey_self {β : Type} (m : List (String × β)) (k : String)
    (f : β → β) : lookupKey (mapAtKey m k f) k = (lookupKey m k).map f := by
  induction m with
  | nil => rfl
  | cons kv rest ih =>
    by_cases h : kv.1 = k
    · subst h; simp [mapAtKey, lookupKey]
    · simp [mapAtKey, lookupKey, h] at ih ⊢; exact ih

theorem lookupKey_mapAtKey_ne {β : Type} (m : List (String × β)) {k q : String}
    (f : β → β) (h : q ≠ k) : lookupKey (mapAtKey m k f) q = lookupKey m q := by
  induction m with
  | nil => rfl
  | cons kv rest ih =>
    by_cases h2 : kv.1 = k
    · subst h2
      simp [mapAtKey, lookupKey, Ne.symm h] at ih ⊢
      exact ih
    · by_cases h3 : kv.1 = q
      · subst h3; simp [mapAtKey, lookupKey, h2]
      · simp [mapAtKey, lookupKey, h2, h3] at ih ⊢; exact ih

theorem mapAtKey_of_not_mem {β : Type} {m : List (String × β)} {k : String}
    (h : k ∉ keysOf m) (f : β → β) : mapAtKey m k f = m := by
  induction m with
  | nil => rfl
  | cons kv rest ih =>
    simp only [keysOf_cons, List.mem_cons, not_or] at h
    simp [mapAtKey, Ne.symm h.1] at ih ⊢
    exact ih h.2

theorem sumVals_mapAtKey {m : List (String × ℚ)} (hnd : (keysOf m).Nodup)
    {k : String} {v : ℚ} (h : lookupKey m k = some v) (f : ℚ → ℚ) :
    sumVals (mapAtKey m k f) = sumVals m + (f v - v) := by
  induction m with
  | nil => cases h
  | cons kv rest ih =>
    by_cases hk : kv.1 = k
    · subst hk
      simp [lookupKey] at h
      subst h
      have hnotin : kv.1 ∉ keysOf rest := (List.nodup_cons.mp hnd).1
      simp [mapAtKey, mapAtKey_of_not_mem hnotin]
      have : (rest.map fun x => if x.1 = kv.1 then (x.1, f x.2) else x) = rest := by
        have := mapAtKey_of_not_mem hnotin f
        simpa [mapAtKey] using this
      rw [this]; ring
    · simp [lookupKey, hk] at h
      simp [mapAtKey, hk] at ih ⊢
      have := ih (List.nodup_cons.mp hnd).2 h
      simp [mapAtKey] at this
      rw [this]; ring

theorem lookupKey_append {β : Type} (m m2 : List (String × β)) (q : String) :
    lookupKey (m ++ m2) q =
      match lookupKey m q with
      | some v => some v
      | none => lookupKey m2 q := by
  induction m with
  | nil => simp [lookupKey]
  | cons kv rest ih =>
    by_cases h : kv.1 = q
    · simp [lookupKey, h]
    · simp [lookupKey, h, ih]

theorem lookupKey_setKey_self {β : Type} (m : List (String × β)) (k : String)
    (v : β) : lookupKey (setKey m k v) k = some v := by
  rcases h : lookupKey m k with _ | w
  · simp [setKey, h, lookupKey_append, lookupKey]
  · simp [setKey, h, lookupKey_mapAtKey_self]

theorem lookupKey_setKey_ne {β : Type} (m : List (String × β)) {k q : String}
    (v : β) (h : q ≠ k) : lookupKey (setKey m k v) q = lookupKey m q := by
  rcases h2 : lookupKey m k with _ | w
  · rcases h3 : lookupKey m q with _ | u
    · simp [setKey, h2, lookupKey_append, h3, lookupKey, Ne.symm h]
    · simp [setKey, h2, lookupKey_append, h3]
  · simp [setKey, h2, lookupKey_mapAtKey_ne _ _ h]

theorem keysOf_setKey_of_mem {β : Type} {m : List (String × β)} {k : String}
    (hk : k ∈ keysOf m) (v : β) : keysOf (setKey m k v) = keysOf m := by
  have := (lookupKey_isSome m k).mpr hk
  rcases h : lookupKey m k with _ | w
  · rw [h] at this; cases this
  · simp [setKey, h]

theorem sumVals_setKey {m : List (String × ℚ)} (hnd : (keysOf m).Nodup)
    {k : String} {w : ℚ} (h : lookupKey m k = some w) (v : ℚ) :
    sumVals (setKey m k v) = sumVals m + (v - w) := by
  simp only [setKey, h]
  exact sumVals_mapAtKey hnd h _

theorem sumVals_eq_keys_sum {m : List (String × ℚ)} {g : String → ℚ}
    (h : ∀ kv ∈ m, kv.2 = g kv.1) : sumVals m = ((keysOf m).map g).sum := by
  induction m with
  | nil => rfl
  | cons kv rest ih =>
    simp only [sumVals_cons, keysOf_cons, List.map_cons, List.sum_cons]
    rw [h kv (List.mem_cons_self _ _), ih (fun kv2 h2 => h kv2 (List.mem_cons_of_mem _ h2))]

theorem list_sum_map_add {α : Type} (l : List α) (f g : α → ℚ) :
    (l.map fun a => f a + g a).sum = (l.map f).sum + (l.map g).sum := by
  induction l with
  | nil => simp
  | cons a rest ih => simp [ih]; ring

theorem list_sum_map_const {α : Type} (l : List α) (a : ℚ) :
    (l.map fun _ => a).sum = (l.length : ℚ) * a := by
  induction l with
  | nil => simp
  | cons x rest ih => simp [ih]; ring

theorem list_sum_map_mul_right {α : Type} (l : List α) (f : α → ℚ) (x : ℚ) :
    (l.map fun a => f a * x).sum = (l.map f).sum * x := by
  induction l with
  | nil => simp
  | cons a rest ih => simp [ih]; ring

theorem list_sum_ite_single {keys : List String} (hnd : keys.Nodup) {l : String}
    (hl : l ∈ keys) (x : ℚ) :
    (keys.map fun q => if q = l then x else 0).sum = x := by
  induction keys with
  | nil => cases hl
  | cons k rest ih =>
    rcases List.mem_cons.mp hl with rfl | h2
    · have : l ∉ rest := (List.nodup_cons.mp hnd).1
      have hz : (rest.map fun q => if q = l then x else 0).sum = 0 := by
        apply List.sum_eq_zero
        intro y hy
        rcases List.mem_map.mp hy with ⟨q, hq, rfl⟩
        have : q ≠ l := fun he => (he ▸ this) hq
        simp [this]
      simp [hz]
    · have hne : k ≠ l := by
        intro he
        exact (List.nodup_cons.mp hnd).1 (he ▸ h2)
      simp [hne, ih (List.nodup_cons.mp hnd).2 h2]

theorem list_sum_count {keys : List String} (hnd : keys.Nodup)
    {links : List String} (hsub : ∀ l ∈ links, l ∈ keys) :
    (keys.map fun q => (links.count q : ℚ)).sum = (links.length : ℚ) := by
  induction links with
  | nil => simp
  | cons l rest ih =>
    have h1 : ∀ q : String, ((l :: rest).count q : ℚ) =
        (rest.count q : ℚ) + (if q = l then (1 : ℚ) else 0) := by
      intro q
      by_cases h : q = l
      · subst h; simp [List.count_cons]
      · simp [List.count_cons, h]
    calc (keys.map fun q => ((l :: rest).count q : ℚ)).sum
        = (keys.map fun q => (rest.count q : ℚ) + (if q = l then (1 : ℚ) else 0)).sum := by
          apply congrArg
          exact List.map_congr_left fun q _ => h1 q
      _ = (keys.map fun q => (rest.count q : ℚ)).sum
          + (keys.map fun q => if q = l then (1 : ℚ) else 0).sum :=
          list_sum_map_add _ _ _
      _ = (rest.length : ℚ) + 1 := by
          rw [ih (fun x hx => hsub x (List.mem_cons_of_mem _ hx)),
            list_sum_ite_single hnd (hsub l (List.mem_cons_self _ _))]
      _ = ((l :: rest).length : ℚ) := by push_cast [List.length_cons]; ring

/-! ### Characterization of the transition model -/

/-- The weight `transition_model` ends up assigning to page `q`: the base
share `(1-d)/N` plus, for a sink page, `d/N`, and otherwise `d/L` once for
each occurrence of `q` among the outbound links. -/
def tmWeight (links : List String) (d N : ℚ) (q : String) : ℚ :=
  (1 - d) / N +
    (if links.length = 0 then d / N
     else (links.count q : ℚ) * (d / (links.length : ℚ)))

theorem lookupKey_mapShape {β : Type} (c : Corpus) (g : String → β) (k : String) :
    lookupKey (c.map fun kv => (kv.1, g kv.1)) k = (lookupKey c k).map (fun _ => g k) :=
  lookupKey_mapVal c (fun q _ => g q) k

theorem addToKey_mapShape {c : Corpus} (g : String → ℚ) {l : String}
    (hl : l ∈ keysOf c) (v : ℚ) :
    addToKey (c.map fun kv => (kv.1, g kv.1)) l v =
      some (c.map fun kv => (kv.1, g kv.1 + if kv.1 = l then v else 0)) := by
  have hsome := (lookupKey_isSome c l).mpr hl
  rcases h : lookupKey c l with _ | ls
  · rw [h] at hsome; cases hsome
  · simp only [addToKey, lookupKey_mapShape, h, Option.map_some']
    congr 1
    simp only [mapAtKey, List.map_map]
    apply List.map_congr_left
    intro kv _
    by_cases hk : kv.1 = l
    · simp [Function.comp, hk]
    · simp [Function.comp, hk]

theorem foldlM_addToKey_mapShape {c : Corpus} (links : List String) (v : ℚ) :
    ∀ g : String → ℚ, (∀ l ∈ links, l ∈ keysOf c) →
      links.foldlM (fun m link => addToKey m link v) (c.map fun kv => (kv.1, g kv.1)) =
        some (c.map fun kv => (kv.1, g kv.1 + (links.count kv.1 : ℚ) * v)) := by
  induction links with
  | nil =>
    intro g _
    simp [List.foldlM]
  | cons l rest ih =>
    intro g hcl
    rw [List.foldlM_cons, addToKey_mapShape g (hcl l (List.mem_cons_self _ _)) v]
    have step := ih (fun q => g q + if q = l then v else 0)
      (fun x hx => hcl x (List.mem_cons_of_mem _ hx))
    simp only [Option.bind_eq_bind, Option.some_bind]
    rw [step]
    congr 1
    apply List.map_congr_left
    intro kv _
    by_cases hk : kv.1 = l
    · simp only [hk, if_pos rfl, List.count_cons, beq_self_eq_true, if_true,
        Prod.mk.injEq, true_and]
      push_cast
      ring
    · have hb : (l == kv.1) = false := beq_eq_false_iff_ne.mpr (Ne.symm hk)
      simp only [hk, if_neg hk, List.count_cons, hb, if_false,
        Prod.mk.injEq, true_and]
      push_cast
      ring

theorem transition_model_none {c : Corpus} {page : String} (d : ℚ)
    (h : lookupKey c page = none) : transition_model c page d = none := by
  simp [transition_model, h]

theorem transition_model_char {c : Corpus} {page : String} (d : ℚ)
    {links : List String} (hlk : lookupKey c page = some links)
    (hcl : ∀ l ∈ links, l ∈ keysOf c) :
    transition_model c page d =
      some (c.map fun kv => (kv.1, tmWeight links d (c.length : ℚ) kv.1)) := by
  unfold transition_model
  rw [hlk]
  by_cases hlen : links.length < 1
  · have hnil : links = [] := List.length_eq_zero.mp (by omega)
    subst hnil
    simp only [if_pos hlen, List.map_map, Option.some.injEq]
    apply List.map_congr_left
    intro kv _
    simp [Function.comp, tmWeight]
  · simp only [if_neg hlen]
    rw [foldlM_addToKey_mapShape links (d / (links.length : ℚ))
      (fun _ => (1 - d) / (c.length : ℚ)) hcl]
    congr 1
    apply List.map_congr_left
    intro kv _
    have : links.length ≠ 0 := by omega
    simp [tmWeight, this]

theorem sumVals_mapShape (c : Corpus) (f : String → ℚ) :
    sumVals (c.map fun kv => (kv.1, f kv.1)) = ((keysOf c).map f).sum := by
  simp [sumVals, keysOf, List.map_map]
  rfl

theorem keysOf_mapShape {β : Type} (c : Corpus) (g : String → β) :
    keysOf (c.map fun kv => (kv.1, g kv.1)) = keysOf c :=
  keysOf_mapVal c fun q _ => g q

theorem length_keysOf {β : Type} (m : List (String × β)) :
    (keysOf m).length = m.length := List.length_map _ _

theorem tmWeight_sum {c : Corpus} (hnd : (keysOf c).Nodup) (hne : c ≠ [])
    {links : List String} (hcl : ∀ l ∈ links, l ∈ keysOf c) (d : ℚ) :
    (((keysOf c).map (tmWeight links d (c.length : ℚ))).sum) = 1 := by
  have hN : ((c.length : ℚ)) ≠ 0 := by
    have : c.length ≠ 0 := fun h => hne (List.length_eq_zero.mp h)
    exact_mod_cast this
  by_cases h0 : links.length = 0
  · have : ∀ q ∈ keysOf c,
        tmWeight links d (c.length : ℚ) q = (1 - d) / (c.length : ℚ) + d / (c.length : ℚ) := by
      intro q _; simp [tmWeight, h0]
    rw [List.map_congr_left this, list_sum_map_const, length_keysOf]
    field_simp
  · have hL : ((links.length : ℚ)) ≠ 0 := by exact_mod_cast h0
    unfold tmWeight
    simp only [if_neg h0]
    rw [list_sum_map_add, list_sum_map_const, length_keysOf,
      list_sum_map_mul_right, list_sum_count hnd hcl]
    field_simp

theorem WF_links {c : Corpus} (hwf : WF c) {p : String} {ls : List String}
    (hl : lookupKey c p = some ls) : ls.Nodup ∧ ∀ l ∈ ls, l ∈ keysOf c :=
  hwf.2 (p, ls) (lookupKey_mem hl)

theorem ne_nil_of_lookupKey {β : Type} {c : List (String × β)} {p : String}
    {v : β} (hl : lookupKey c p = some v) : c ≠ [] := by
  intro h; subst h; cases hl

theorem length_pos_q {β : Type} {c : List (String × β)} (h : c ≠ []) :
    0 < ((c.length : ℚ)) := by
  have : 0 < c.length := List.length_pos.mpr h
  exact_mod_cast this

/-- C6: for a page of the graph with at least one outbound link every page
gets `(1-d)/N` plus `d/L` for each page linked from it; for a page with no
outbound links every page gets `(1-d)/N + d/N`; in both cases the weights sum
to 1 (exactly, in the rational model). -/
theorem transition_model_weights_sum_one (c : Corpus) (page : String) (d : ℚ)
    (hwf : WF c) (_hd0 : 0 < d) (_hd1 : d < 1) {links : List String}
    (hlk : lookupKey c page = some links) :
    ∃ m, transition_model c page d = some m ∧ sumVals m = 1 ∧
      ∀ q ∈ keysOf c, lookupKey m q =
        some ((1 - d) / (c.length : ℚ) +
          (if links.length = 0 then d / (c.length : ℚ)
           else if q ∈ links then d / (links.length : ℚ) else 0)) := by
  obtain ⟨hndl, hcl⟩ := WF_links hwf hlk
  have hne : c ≠ [] := ne_nil_of_lookupKey hlk
  refine ⟨_, transition_model_char d hlk hcl, ?_, ?_⟩
  · rw [sumVals_mapShape]
    exact tmWeight_sum hwf.1 hne hcl d
  · intro q hq
    rw [lookupKey_mapShape]
    have : (lookupKey c q).isSome := (lookupKey_isSome c q).mpr hq
    rcases h : lookupKey c q with _ | ls
    · rw [h] at this; cases this
    · simp only [Option.map_some', Option.some.injEq]
      unfold tmWeight
      by_cases h0 : links.length = 0
      · simp [h0]
      · simp only [if_neg h0]
        by_cases hql : q ∈ links
        · rw [List.count_eq_one_of_mem hndl hql]
          simp [hql]
        · rw [List.count_eq_zero_of_not_mem hql]
          simp [hql]

/-- Closed witness for the previous theorem on the graph
`{A: {B}, B: {}}` at damping factor 17/20 and page `A`. -/
theorem transition_model_weights_sum_one_witness :
    ∃ m, transition_model [("A", ["B"]), ("B", [])] "A" (17/20) = some m ∧
      sumVals m = 1 ∧
      ∀ q ∈ keysOf ([("A", ["B"]), ("B", [])] : Corpus), lookupKey m q =
        some ((1 - 17/20) / ((2 : ℕ) : ℚ) +
          (if (1 : ℕ) = 0 then (17/20) / ((2 : ℕ) : ℚ)
           else if q ∈ ["B"] then (17/20) / ((1 : ℕ) : ℚ) else 0)) := by
  have := @transition_model_weights_sum_one [("A", ["B"]), ("B", [])] "A" (17/20)
    (by decide) (by norm_num) (by norm_num) ["B"] (by simp [lookupKey])
  simpa using this

/-- C10: every page of the graph receives a strictly positive weight from
`transition_model`, whatever the current page, whenever `0 < d < 1`. -/
theorem transition_model_all_positive (c : Corpus) (page : String) (d : ℚ)
    (hwf : WF c) (hd0 : 0 < d) (hd1 : d < 1) {links : List String}
    (hlk : lookupKey c page = some links) :
    ∃ m, transition_model c page d = some m ∧
      ∀ q ∈ keysOf c, ∃ w, lookupKey m q = some w ∧ 0 < w := by
  obtain ⟨hndl, hcl⟩ := WF_links hwf hlk
  have hne : c ≠ [] := ne_nil_of_lookupKey hlk
  have hN : 0 < ((c.length : ℚ)) := length_pos_q hne
  refine ⟨_, transition_model_char d hlk hcl, ?_⟩
  intro q hq
  rw [lookupKey_mapShape]
  have hsome : (lookupKey c q).isSome := (lookupKey_isSome c q).mpr hq
  rcases h : lookupKey c q with _ | ls
  · rw [h] at hsome; cases hsome
  · refine ⟨_, rfl, ?_⟩
    have hbase : 0 < (1 - d) / (c.length : ℚ) := by
      apply div_pos (by linarith) hN
    have hrest : 0 ≤ (if links.length = 0 then d / (c.length : ℚ)
        else (links.count q : ℚ) * (d / (links.length : ℚ))) := by
      by_cases h0 : links.length = 0
      · simp only [if_pos h0]
        positivity
      · simp only [if_neg h0]
        have hL : 0 < ((links.length : ℚ)) := by
          have : 0 < links.length := Nat.pos_of_ne_zero h0
          exact_mod_cast this
        have : 0 ≤ (links.count q : ℚ) := by positivity
        positivity
    unfold tmWeight
    linarith

/-- Closed witness for the previous theorem: on `{A: {B}, B: {}}` with damping
factor 17/20, every page gets a strictly positive weight from page `B`. -/
theorem transition_model_all_positive_witness :
    ∃ m, transition_model [("A", ["B"]), ("B", [])] "B" (17/20) = some m ∧
      ∀ q ∈ keysOf ([("A", ["B"]), ("B", [])] : Corpus),
        ∃ w, lookupKey m q = some w ∧ 0 < w :=
  @transition_model_all_positive [("A", ["B"]), ("B", [])] "B" (17/20)
    (by decide) (by norm_num) (by norm_num) [] (by simp [lookupKey])

/-- C3 counterexample: with the out-of-range damping factor 2 and a valid
page, `transition_model` returns a weight mapping normally instead of failing
with an invalid-input error (the weights are not even a distribution). -/
theorem transition_model_no_damping_validation_cex :
    transition_model [("A", ["B"]), ("B", [])] "A" 2 =
      some [("A", -(1/2)), ("B", 3/2)] ∧ ¬ ((2 : ℚ) < 1) := by
  constructor
  · simp [transition_model, lookupKey, addToKey, mapAtKey]
    norm_num
  · norm_num

/-- C3 (amended): `transition_model` performs no input validation. A page that
is not a key of the graph — in particular any page of an empty graph — makes
it fail with a bare key-lookup error (Python KeyError), not a classified
invalid-input error; a damping factor outside (0,1) is not rejected: for a
member page of a well-formed graph the function still returns a weight
mapping, whatever `d`. -/
theorem transition_model_error_behavior :
    (∀ (c : Corpus) (page : String) (d : ℚ), lookupKey c page = none →
      transition_model c page d = none) ∧
    (∀ (c : Corpus) (page : String) (d : ℚ) (links : List String), WF c →
      lookupKey c page = some links → (transition_model c page d).isSome) := by
  constructor
  · intro c page d h
    exact transition_model_none d h
  · intro c page d links hwf hlk
    rw [transition_model_char d hlk (WF_links hwf hlk).2]
    rfl

/-- Closed witness: the unknown page `C` raises KeyError, while the invalid
damping factor 3/2 on the member page `A` still yields a mapping. -/
theorem transition_model_error_behavior_witness :
    transition_model [("A", ["B"]), ("B", [])] "C" (17/20) = none ∧
      (transition_model [("A", ["B"]), ("B", [])] "A" (3/2)).isSome := by
  constructor
  · exact transition_model_error_behavior.1 _ _ _ (by simp [lookupKey])
  · exact transition_model_error_behavior.2 _ _ _ ["B"] (by decide)
      (by simp [lookupKey])

/-! ### The random-walk sampler -/

theorem addToKey_char {m : List (String × ℚ)} {k : String} (h : k ∈ keysOf m)
    (v : ℚ) :
    ∃ m2, addToKey m k v = some m2 ∧ keysOf m2 = keysOf m ∧
      ((keysOf m).Nodup → sumVals m2 = sumVals m + v) := by
  have hsome := (lookupKey_isSome m k).mpr h
  rcases hl : lookupKey m k with _ | w
  · rw [hl] at hsome; cases hsome
  · refine ⟨mapAtKey m k (fun w => w + v), ?_, keysOf_mapAtKey m k _,
      fun hnd => ?_⟩
    · simp [addToKey, hl]
    · rw [sumVals_mapAtKey hnd hl]
      ring

theorem get?_mod_isSome {l : List String} (h : l ≠ []) (i : Nat) :
    ∃ a, l.get? (i % l.length) = some a ∧ a ∈ l := by
  have hlen : 0 < l.length := List.length_pos.mpr h
  have hlt : i % l.length < l.length := Nat.mod_lt _ hlen
  rcases hg : l.get? (i % l.length) with _ | a
  · rw [List.get?_eq_none] at hg; omega
  · exact ⟨a, rfl, List.get?_mem hg⟩

theorem keysOf_ne_nil {β : Type} {c : List (String × β)} (h : c ≠ []) :
    keysOf c ≠ [] := by
  cases c with
  | nil => exact absurd rfl h
  | cons kv rest => simp [keysOf]

theorem sampleStep_char {c : Corpus} (hwf : WF c) (d : ℚ) (oracle : Nat → Nat)
    (i : Nat) {st : String × List (String × ℚ)} (hcur : st.1 ∈ keysOf c)
    (hkeys : keysOf st.2 = keysOf c) :
    ∃ st2, sampleStep c d oracle i st = some st2 ∧ st2.1 ∈ keysOf c ∧
      keysOf st2.2 = keysOf c ∧ sumVals st2.2 = sumVals st.2 + 1 := by
  have hsome := (lookupKey_isSome c st.1).mpr hcur
  rcases hlk : lookupKey c st.1 with _ | links
  · rw [hlk] at hsome; cases hsome
  · have hne : c ≠ [] := ne_nil_of_lookupKey hlk
    have htm := transition_model_char d hlk (WF_links hwf hlk).2
    have hkm : keysOf (c.map fun kv =>
        (kv.1, tmWeight links d (c.length : ℚ) kv.1)) = keysOf c :=
      keysOf_mapShape c _
    obtain ⟨next, hget, hmem⟩ := get?_mod_isSome (keysOf_ne_nil hne) (oracle i)
    obtain ⟨pr2, hadd, hk2, hs2⟩ := @addToKey_char st.2 next
      (by rw [hkeys]; exact hmem) 1
    refine ⟨(next, pr2), ?_, hmem, by simpa using hk2.trans hkeys, ?_⟩
    · unfold sampleStep
      rw [htm]
      simp only [hkm, hget, hadd]
    · exact hs2 (by rw [hkeys]; exact hwf.1)

theorem sampleLoop_char {c : Corpus} (hwf : WF c) (d : ℚ) (oracle : Nat → Nat) :
    ∀ (steps i : Nat) (st : String × List (String × ℚ)),
      st.1 ∈ keysOf c → keysOf st.2 = keysOf c →
      ∃ st2, sampleLoop c d oracle steps i st = some st2 ∧
        keysOf st2.2 = keysOf c ∧
        sumVals st2.2 = sumVals st.2 + (steps : ℚ) := by
  intro steps
  induction steps with
  | zero =>
    intro i st _ hkeys
    exact ⟨st, rfl, hkeys, by simp⟩
  | succ k ih =>
    intro i st hcur hkeys
    obtain ⟨st2, hstep, hcur2, hkeys2, hsum2⟩ :=
      sampleStep_char hwf d oracle i hcur hkeys
    obtain ⟨st3, hloop, hkeys3, hsum3⟩ := ih (i + 1) st2 hcur2 hkeys2
    refine ⟨st3, ?_, hkeys3, ?_⟩
    · unfold sampleLoop
      rw [hstep]
      exact hloop
    · rw [hsum3, hsum2]
      push_cast
      ring

theorem sumVals_mapDiv (m : List (String × ℚ)) (q : ℚ) :
    sumVals (m.map fun kv => (kv.1, kv.2 / q)) = sumVals m / q := by
  induction m with
  | nil => simp [sumVals]
  | cons kv rest ih =>
    simp only [List.map_cons, sumVals_cons, ih]
    ring

theorem sample_pagerank_char (c : Corpus) (d : ℚ) (n : Int) (initIx : Nat)
    (oracle : Nat → Nat) (hwf : WF c) (hne : c ≠ []) (hn : 0 < n) :
    ∃ m, sample_pagerank c d n initIx oracle = some m ∧
      keysOf m = keysOf c ∧ sumVals m = 1 := by
  obtain ⟨start, hget, hmem⟩ := get?_mod_isSome (keysOf_ne_nil hne) initIx
  have hkinit : keysOf (c.map fun kv => (kv.1, (0 : ℚ))) = keysOf c :=
    keysOf_mapShape c (fun _ => (0 : ℚ))
  have hsinit : sumVals (c.map fun kv => (kv.1, (0 : ℚ))) = 0 := by
    have h1 := sumVals_mapShape c (fun _ : String => (0 : ℚ))
    have h2 : (((keysOf c).map (fun _ : String => (0 : ℚ))).sum) = 0 := by
      rw [list_sum_map_const]
      ring
    exact h1.trans h2
  obtain ⟨st2, hloop, hkeys2, hsum2⟩ := sampleLoop_char hwf d oracle n.toNat 0
    (start, c.map fun kv => (kv.1, (0 : ℚ))) hmem hkinit
  have hn0 : n ≠ 0 := by omega
  refine ⟨st2.2.map fun kv => (kv.1, kv.2 / (n : ℚ)), ?_, ?_, ?_⟩
  · unfold sample_pagerank
    rw [length_keysOf] at hget
    rw [hget]
    simp only [hloop, if_neg hn0]
  · exact (keysOf_mapVal st2.2 fun _ w => w / (n : ℚ)).trans hkeys2
  · rw [sumVals_mapDiv, hsum2, hsinit]
    have hcast : ((n.toNat : ℚ)) = ((n : ℚ)) := by
      have := Int.toNat_of_nonneg (le_of_lt hn)
      exact_mod_cast this
    have : ((n : ℚ)) ≠ 0 := by exact_mod_cast hn0
    rw [hcast]
    field_simp

/-- C9 counterexample: with the negative sample count `n = -1` the sampler
does not fail — the `range(n)` loop is empty and `0 / n` is a valid division,
so it returns the all-zero mapping. -/
theorem sample_pagerank_negative_n_cex :
    sample_pagerank [("A", ["A"])] (17/20) (-1) 0 (fun _ => 0) =
      some [("A", 0)] := by
  simp [sample_pagerank, sampleLoop, keysOf, lookupKey]

/-- C9 (amended): `sample_pagerank` on a non-empty corpus fails for `n = 0`
(with a division-by-zero error, not a classified invalid-input error), but for
every negative `n` it silently returns the all-zero mapping instead of
failing. -/
theorem sample_pagerank_nonpositive_n (c : Corpus) (d : ℚ) (initIx : Nat)
    (oracle : Nat → Nat) (hne : c ≠ []) :
    sample_pagerank c d 0 initIx oracle = none ∧
    ∀ n : Int, n < 0 →
      sample_pagerank c d n initIx oracle = some (c.map fun kv => (kv.1, 0)) := by
  obtain ⟨start, hget, hmem⟩ := get?_mod_isSome (keysOf_ne_nil hne) initIx
  rw [length_keysOf] at hget
  constructor
  · unfold sample_pagerank
    rw [hget]
    simp [sampleLoop]
  · intro n hn
    have htn : n.toNat = 0 := Int.toNat_eq_zero.mpr (le_of_lt hn)
    have hn0 : n ≠ 0 := by omega
    unfold sample_pagerank
    rw [hget, htn]
    simp only [sampleLoop, if_neg hn0, Option.some.injEq]
    rw [List.map_map]
    apply List.map_congr_left
    intro kv _
    simp

/-- Closed witness: on the two-page corpus, `n = 0` raises and `n = -5`
returns the all-zero mapping. -/
theorem sample_pagerank_nonpositive_n_witness :
    sample_pagerank [("A", ["A"]), ("B", ["A"])] (17/20) 0 3 (fun i => i) = none ∧
      sample_pagerank [("A", ["A"]), ("B", ["A"])] (17/20) (-5) 3 (fun i => i) =
        some ([("A", ["A"]), ("B", ["A"])].map fun kv => (kv.1, 0)) := by
  have h := sample_pagerank_nonpositive_n [("A", ["A"]), ("B", ["A"])] (17/20) 3
    (fun i => i) (by simp)
  exact ⟨h.1, h.2 (-5) (by norm_num)⟩

/-! ### Sink normalization and the reverse-link index -/

theorem normalize_corpus_eq_mapShape (c : Corpus) :
    normalize_corpus c =
      c.map (fun kv => (kv.1, (fun _ ls => if ls = [] then keysOf c else ls) kv.1 kv.2)) := by
  unfold normalize_corpus
  apply List.map_congr_left
  intro kv _
  by_cases h : kv.2 = []
  · simp [h]
  · simp [h]

theorem keysOf_normalize (c : Corpus) :
    keysOf (normalize_corpus c) = keysOf c := by
  rw [normalize_corpus_eq_mapShape]
  exact keysOf_mapVal c (fun _ ls => if ls = [] then keysOf c else ls)

theorem lookupKey_normalize (c : Corpus) (q : String) :
    lookupKey (normalize_corpus c) q =
      (lookupKey c q).map (fun ls => if ls = [] then keysOf c else ls) := by
  rw [normalize_corpus_eq_mapShape]
  exact lookupKey_mapVal c (fun _ ls => if ls = [] then keysOf c else ls) q

theorem WF_normalize {c : Corpus} (hwf : WF c) : WF (normalize_corpus c) := by
  constructor
  · rw [keysOf_normalize]
    exact hwf.1
  · intro kv hkv
    rw [normalize_corpus_eq_mapShape] at hkv
    obtain ⟨kv2, hkv2, heq⟩ := List.mem_map.mp hkv
    subst heq
    by_cases h : kv2.2 = []
    · simp only [h, if_pos rfl]
      refine ⟨hwf.1, ?_⟩
      intro l hl
      rw [keysOf_normalize]
      exact hl
    · simp only [h, if_neg h]
      obtain ⟨h1, h2⟩ := hwf.2 kv2 hkv2
      refine ⟨h1, ?_⟩
      intro l hl
      rw [keysOf_normalize]
      exact h2 l hl

theorem normalize_links_ne_nil {c : Corpus} (hne : c ≠ []) {q : String}
    {ls : List String} (h : lookupKey (normalize_corpus c) q = some ls) :
    ls ≠ [] := by
  rw [lookupKey_normalize] at h
  rcases h2 : lookupKey c q with _ | ls0
  · rw [h2] at h; cases h
  · rw [h2] at h
    simp only [Option.map_some', Option.some.injEq] at h
    subst h
    by_cases h3 : ls0 = []
    · simp only [h3, if_pos rfl]
      exact keysOf_ne_nil hne
    · simp only [if_neg h3]
      exact h3

/-- The corpus's links flattened to (page, link) pairs in iteration order;
`crawl_origin`'s nested loops process exactly these pairs. -/
def edgeList : Corpus → List (String × String)
  | [] => []
  | kv :: rest => (kv.2.map fun l => (kv.1, l)) ++ edgeList rest

theorem crawl_origin_fold_eq_edgeList (c : Corpus) :
    ∀ m0 : List (String × List String),
      c.foldlM (fun m kv => kv.2.foldlM (fun m2 link => addOrigin m2 link kv.1) m) m0 =
        (edgeList c).foldlM (fun m e => addOrigin m e.2 e.1) m0 := by
  induction c with
  | nil => intro m0; rfl
  | cons kv rest ih =>
    intro m0
    rw [List.foldlM_cons, edgeList, List.foldlM_append]
    have hinner : kv.2.foldlM (fun m2 link => addOrigin m2 link kv.1) m0 =
        (kv.2.map fun l => (kv.1, l)).foldlM (fun m e => addOrigin m e.2 e.1) m0 := by
      rw [List.foldlM_map]
    rw [← hinner]
    rcases h : kv.2.foldlM (fun m2 link => addOrigin m2 link kv.1) m0 with _ | m1
    · rfl
    · exact ih m1

theorem mem_edgeList {c : Corpus} (hnd : (keysOf c).Nodup) (p l : String) :
    (p, l) ∈ edgeList c ↔ ∃ ls, lookupKey c p = some ls ∧ l ∈ ls := by
  induction c with
  | nil => simp [edgeList, lookupKey]
  | cons kv rest ih =>
    rw [edgeList, List.mem_append]
    by_cases hp : kv.1 = p
    · subst hp
      have hnotin : kv.1 ∉ keysOf rest := (List.nodup_cons.mp hnd).1
      constructor
      · intro h
        rcases h with h | h
        · obtain ⟨l2, hl2, heq⟩ := List.mem_map.mp h
          refine ⟨kv.2, by simp [lookupKey], ?_⟩
          cases heq
          exact hl2
        · obtain ⟨ls, hls, _⟩ := (ih (List.nodup_cons.mp hnd).2 ).mp h
          exact absurd (mem_keysOf_of_lookupKey hls) hnotin
      · rintro ⟨ls, hls, hl⟩
        simp only [lookupKey, eq_self_iff_true, if_true, Option.some.injEq] at hls
        subst hls
        exact Or.inl (List.mem_map.mpr ⟨l, hl, rfl⟩)
    · constructor
      · intro h
        rcases h with h | h
        · obtain ⟨l2, _, heq⟩ := List.mem_map.mp h
          cases heq
          exact absurd rfl hp
        · obtain ⟨ls, hls, hl⟩ := (ih (List.nodup_cons.mp hnd).2).mp h
          exact ⟨ls, by simp [lookupKey, hp, hls], hl⟩
      · rintro ⟨ls, hls, hl⟩
        simp only [lookupKey, hp, if_false] at hls
        exact Or.inr ((ih (List.nodup_cons.mp hnd).2).mpr ⟨ls, hls, hl⟩)

/-- Invariant of the reverse-index construction: keys agree with the corpus
and each page's origin set holds exactly the sources of the processed
edges pointing at it, without duplicates. -/
def originInv (c : Corpus) (processed : List (String × String))
    (lt : List (String × List String)) : Prop :=
  keysOf lt = keysOf c ∧
  ∀ l origins, lookupKey lt l = some origins →
    origins.Nodup ∧ ∀ p, p ∈ origins ↔ (p, l) ∈ processed

theorem foldlM_addOrigin_inv {c : Corpus} :
    ∀ (E done : List (String × String)) (lt : List (String × List String)),
      originInv c done lt → (∀ e ∈ E, e.2 ∈ keysOf c) →
      ∃ lt2, E.foldlM (fun m e => addOrigin m e.2 e.1) lt = some lt2 ∧
        originInv c (done ++ E) lt2 := by
  intro E
  induction E with
  | nil =>
    intro done lt hinv _
    exact ⟨lt, rfl, by simpa using hinv⟩
  | cons e rest ih =>
    obtain ⟨ep, el⟩ := e
    intro done lt hinv hE
    have hlmem : el ∈ keysOf lt := by
      rw [hinv.1]
      exact hE (ep, el) (List.mem_cons_self _ _)
    have hsome := (lookupKey_isSome lt el).mpr hlmem
    rcases hl : lookupKey lt el with _ | origins
    · rw [hl] at hsome; cases hsome
    · have hstep : addOrigin lt el ep =
          some (mapAtKey lt el (fun s => if ep ∈ s then s else s ++ [ep])) := by
        simp [addOrigin, hl]
      obtain ⟨ho1, ho2⟩ := hinv.2 el origins hl
      have hinv2 : originInv c (done ++ [(ep, el)])
          (mapAtKey lt el (fun s => if ep ∈ s then s else s ++ [ep])) := by
        constructor
        · rw [keysOf_mapAtKey]
          exact hinv.1
        · intro l org hlk
          by_cases hll : l = el
          · subst hll
            rw [lookupKey_mapAtKey_self, hl] at hlk
            simp only [Option.map_some', Option.some.injEq] at hlk
            subst hlk
            by_cases hin : ep ∈ origins
            · simp only [hin, if_true]
              refine ⟨ho1, ?_⟩
              intro p
              rw [ho2 p, List.mem_append, List.mem_singleton, Prod.mk.injEq]
              constructor
              · intro h
                exact Or.inl h
              · intro h
                rcases h with h | ⟨h1, _⟩
                · exact h
                · subst h1
                  exact (ho2 p).mp hin
            · simp only [hin, if_false]
              constructor
              · rw [List.nodup_append]
                refine ⟨ho1, List.nodup_singleton _, ?_⟩
                intro a ha hmem
                rcases List.mem_singleton.mp hmem with rfl
                exact hin ha
              · intro p
                rw [List.mem_append, List.mem_singleton, List.mem_append,
                  List.mem_singleton, Prod.mk.injEq, ho2 p]
                constructor
                · intro h
                  rcases h with h | h
                  · exact Or.inl h
                  · exact Or.inr ⟨h, rfl⟩
                · intro h
                  rcases h with h | ⟨h1, _⟩
                  · exact Or.inl h
                  · exact Or.inr h1
          · rw [lookupKey_mapAtKey_ne _ _ hll] at hlk
            obtain ⟨hn, hm⟩ := hinv.2 l org hlk
            refine ⟨hn, ?_⟩
            intro p
            rw [hm p, List.mem_append, List.mem_singleton, Prod.mk.injEq]
            constructor
            · intro h
              exact Or.inl h
            · intro h
              rcases h with h | ⟨_, h2⟩
              · exact h
              · exact absurd h2 hll
      obtain ⟨lt2, hfold, hinv3⟩ := ih (done ++ [(ep, el)])
        (mapAtKey lt el (fun s => if ep ∈ s then s else s ++ [ep])) hinv2
        (fun x hx => hE x (List.mem_cons_of_mem _ hx))
      refine ⟨lt2, ?_, ?_⟩
      · rw [List.foldlM_cons, hstep]
        exact hfold
      · rw [List.append_assoc] at hinv3
        simpa using hinv3

theorem crawl_origin_char {c : Corpus} (hwf : WF c) :
    ∃ lt, crawl_origin c = some lt ∧ keysOf lt = keysOf c ∧
      ∀ l origins, lookupKey lt l = some origins →
        origins.Nodup ∧
          ∀ p, p ∈ origins ↔ ∃ ls, lookupKey c p = some ls ∧ l ∈ ls := by
  have hinit : originInv c [] (c.map fun kv => (kv.1, ([] : List String))) := by
    constructor
    · exact keysOf_mapShape c (fun _ => ([] : List String))
    · intro l origins hlk
      rw [lookupKey_mapShape c (fun _ => ([] : List String)) l] at hlk
      rcases h : lookupKey c l with _ | ls
      · rw [h] at hlk; cases hlk
      · rw [h] at hlk
        simp only [Option.map_some', Option.some.injEq] at hlk
        subst hlk
        simp
  have hedges : ∀ e ∈ edgeList c, e.2 ∈ keysOf c := by
    intro e he
    obtain ⟨ep, el⟩ := e
    obtain ⟨ls, hls, hl⟩ := (mem_edgeList hwf.1 ep el).mp he
    exact (WF_links hwf hls).2 el hl
  obtain ⟨lt, hfold, hinv⟩ := foldlM_addOrigin_inv (edgeList c) [] _ hinit hedges
  refine ⟨lt, ?_, hinv.1, ?_⟩
  · unfold crawl_origin
    rw [crawl_origin_fold_eq_edgeList]
    exact hfold
  · intro l origins hlk
    obtain ⟨hn, hm⟩ := hinv.2 l origins hlk
    refine ⟨hn, fun p => ?_⟩
    rw [hm p]
    have : ([] : List (String × String)) ++ edgeList c = edgeList c :=
      List.nil_append _
    rw [this]
    exact mem_edgeList hwf.1 p l

/-- C7: after the solver's sink normalization, the reverse-link index built by
`crawl_origin` lists a sink page `s` as an origin of every page of the graph,
`s` itself included: a sink behaves exactly like a page linking to every
page. -/
theorem crawl_origin_sink_everywhere (c : Corpus) (s : String) (hwf : WF c)
    (hsink : lookupKey c s = some []) :
    ∃ lt, crawl_origin (normalize_corpus c) = some lt ∧
      ∀ p ∈ keysOf c, ∃ origins, lookupKey lt p = some origins ∧ s ∈ origins := by
  obtain ⟨lt, hco, hk, hchar⟩ := crawl_origin_char (WF_normalize hwf)
  refine ⟨lt, hco, ?_⟩
  intro p hp
  have hpmem : p ∈ keysOf lt := by
    rw [hk, keysOf_normalize]
    exact hp
  have hsome := (lookupKey_isSome lt p).mpr hpmem
  rcases hlk : lookupKey lt p with _ | origins
  · rw [hlk] at hsome; cases hsome
  · refine ⟨origins, rfl, ?_⟩
    refine ((hchar p origins hlk).2 s).mpr ⟨keysOf c, ?_, hp⟩
    rw [lookupKey_normalize, hsink]
    simp

/-- Closed witness: on `{A: {B}, B: {}}` the sink `B` is, after
normalization, an origin of both `A` and `B` in the reverse-link index. -/
theorem crawl_origin_sink_everywhere_witness :
    ∃ lt, crawl_origin (normalize_corpus [("A", ["B"]), ("B", [])]) = some lt ∧
      ∀ p ∈ keysOf ([("A", ["B"]), ("B", [])] : Corpus),
        ∃ origins, lookupKey lt p = some origins ∧ "B" ∈ origins :=
  crawl_origin_sink_everywhere [("A", ["B"]), ("B", [])] "B" (by decide)
    (by simp [lookupKey])

/-! ### One round of the iterative solver -/

/-- The origin set the solver reads for page `p` from the reverse index. -/
def originsOf (lt : List (String × List String)) (p : String) : List String :=
  (lookupKey lt p).getD []

/-- The summand `pagerank[origin] / len(corpus[origin])` as a total value. -/
def originSummand (c : Corpus) (pr : List (String × ℚ)) (o : String) : ℚ :=
  (lookupKey pr o).getD 0 / (((lookupKey c o).getD []).length : ℚ)

/-- The value the solver writes for page `p` in one round. -/
def stepValue (c : Corpus) (lt : List (String × List String))
    (pr : List (String × ℚ)) (d : ℚ) (p : String) : ℚ :=
  (1 - d) / (c.length : ℚ) + d * ((originsOf lt p).map (originSummand c pr)).sum

theorem origin_term_eq {c : Corpus} {pr : List (String × ℚ)} {o : String}
    {r : ℚ} {ls : List String} (h1 : lookupKey pr o = some r)
    (h2 : lookupKey c o = some ls) (h3 : ls ≠ []) :
    origin_term c pr o = some (originSummand c pr o) := by
  have hlen : ls.length ≠ 0 := fun h => h3 (List.length_eq_zero.mp h)
  simp [origin_term, h1, h2, hlen, originSummand]

theorem second_sum_fold_eq {c : Corpus} {pr : List (String × ℚ)} :
    ∀ (origins : List String) (acc : ℚ),
      (∀ o ∈ origins, origin_term c pr o = some (originSummand c pr o)) →
      origins.foldlM (fun a o => (origin_term c pr o).map (fun t => a + t)) acc =
        some (acc + (origins.map (originSummand c pr)).sum) := by
  intro origins
  induction origins with
  | nil =>
    intro acc _
    simp
  | cons o rest ih =>
    intro acc h
    rw [List.foldlM_cons, h o (List.mem_cons_self _ _)]
    simp only [Option.map_some', Option.bind_eq_bind, Option.some_bind]
    rw [ih (acc + originSummand c pr o) (fun x hx => h x (List.mem_cons_of_mem _ hx))]
    congr 1
    simp only [List.map_cons, List.sum_cons]
    ring

theorem second_sum_eq {c : Corpus} {pr : List (String × ℚ)}
    {origins : List String}
    (h : ∀ o ∈ origins, origin_term c pr o = some (originSummand c pr o)) :
    second_sum c pr origins = some ((origins.map (originSummand c pr)).sum) := by
  unfold second_sum
  rw [second_sum_fold_eq origins 0 h]
  congr 1
  ring

theorem iterate_step_fold {c : Corpus} {lt : List (String × List String)}
    {pr : List (String × ℚ)} (d : ℚ)
    (hcond : ∀ p ∈ keysOf c, ∃ origins, lookupKey lt p = some origins ∧
      ∀ o ∈ origins, origin_term c pr o = some (originSummand c pr o)) :
    ∀ (todo : List (String × List String)) (working : List (String × ℚ)),
      (∀ kv ∈ todo, kv.1 ∈ keysOf c) → keysOf working = keysOf c →
      ∃ w, todo.foldlM (fun working kv =>
          match lookupKey lt kv.1 with
          | none => none
          | some origins =>
            match second_sum c pr origins with
            | none => none
            | some s =>
              some (setKey working kv.1 ((1 - d) / (c.length : ℚ) + d * s)))
          working = some w ∧
        keysOf w = keysOf c ∧
        (∀ q, q ∉ keysOf todo → lookupKey w q = lookupKey working q) ∧
        (∀ q ∈ keysOf todo, lookupKey w q = some (stepValue c lt pr d q)) := by
  intro todo
  induction todo with
  | nil =>
    intro working _ hk
    exact ⟨working, rfl, hk, fun q _ => rfl, by simp [keysOf]⟩
  | cons kv rest ih =>
    intro working htodo hk
    obtain ⟨origins, hlto, hterms⟩ :=
      hcond kv.1 (htodo kv (List.mem_cons_self _ _))
    have hss := second_sum_eq hterms
    have hkey1 : kv.1 ∈ keysOf working := by
      rw [hk]
      exact htodo kv (List.mem_cons_self _ _)
    have hstepv : (1 - d) / (c.length : ℚ) +
        d * ((origins.map (originSummand c pr)).sum) = stepValue c lt pr d kv.1 := by
      unfold stepValue originsOf
      rw [hlto]
      rfl
    have hk2 : keysOf (setKey working kv.1 ((1 - d) / (c.length : ℚ) +
        d * ((origins.map (originSummand c pr)).sum))) = keysOf c := by
      rw [keysOf_setKey_of_mem hkey1]
      exact hk
    obtain ⟨w, hfold, hkw, huntouched, hset⟩ := ih _
      (fun x hx => htodo x (List.mem_cons_of_mem _ hx)) hk2
    refine ⟨w, ?_, hkw, ?_, ?_⟩
    · rw [List.foldlM_cons]
      simp only [hlto, hss, Option.bind_eq_bind, Option.some_bind]
      exact hfold
    · intro q hq
      simp only [keysOf_cons, List.mem_cons, not_or] at hq
      rw [huntouched q (by rw [keysOf] at hq ⊢; exact hq.2),
        lookupKey_setKey_ne _ _ hq.1]
    · intro q hq
      rcases List.mem_cons.mp hq with rfl | hq2
      · by_cases hqr : kv.1 ∈ keysOf rest
        · exact hset kv.1 hqr
        · rw [huntouched kv.1 hqr, lookupKey_setKey_self, hstepv]
      · exact hset q hq2

theorem iterate_step_char {c : Corpus} {lt : List (String × List String)}
    {pr : List (String × ℚ)} (d : ℚ)
    (hcond : ∀ p ∈ keysOf c, ∃ origins, lookupKey lt p = some origins ∧
      ∀ o ∈ origins, origin_term c pr o = some (originSummand c pr o))
    (hk : keysOf pr = keysOf c) :
    ∃ w, iterate_step c lt d pr = some w ∧ keysOf w = keysOf c ∧
      ∀ q ∈ keysOf c, lookupKey w q = some (stepValue c lt pr d q) := by
  obtain ⟨w, hfold, hkw, _, hset⟩ := iterate_step_fold d hcond c pr
    (fun kv hkv => List.mem_map_of_mem Prod.fst hkv) hk
  exact ⟨w, hfold, hkw, hset⟩

theorem solver_hcond {c2 : Corpus} {lt : List (String × List String)}
    {pr : List (String × ℚ)}
    (hltkeys : keysOf lt = keysOf c2)
    (hchar : ∀ l origins, lookupKey lt l = some origins → origins.Nodup ∧
       ∀ p, p ∈ origins ↔ ∃ ls, lookupKey c2 p = some ls ∧ l ∈ ls)
    (hnoempty : ∀ q ls, lookupKey c2 q = some ls → ls ≠ [])
    (hprkeys : keysOf pr = keysOf c2) :
    ∀ p ∈ keysOf c2, ∃ origins, lookupKey lt p = some origins ∧
      ∀ o ∈ origins, origin_term c2 pr o = some (originSummand c2 pr o) := by
  intro p hp
  have hpl : p ∈ keysOf lt := by
    rw [hltkeys]
    exact hp
  have hsome := (lookupKey_isSome lt p).mpr hpl
  rcases hlk : lookupKey lt p with _ | origins
  · rw [hlk] at hsome; cases hsome
  · refine ⟨origins, rfl, ?_⟩
    intro o ho
    obtain ⟨ls, hls, _⟩ := ((hchar p origins hlk).2 o).mp ho
    have hopr : o ∈ keysOf pr := by
      rw [hprkeys]
      exact mem_keysOf_of_lookupKey hls
    have hsome2 := (lookupKey_isSome pr o).mpr hopr
    rcases hpo : lookupKey pr o with _ | r
    · rw [hpo] at hsome2; cases hsome2
    · exact origin_term_eq hpo hls (hnoempty o ls hls)

theorem list_sum_ite_sub {K : List String} (hndK : K.Nodup) (f : String → ℚ) :
    ∀ sub : List String, sub.Nodup → (∀ s ∈ sub, s ∈ K) →
      (K.map fun o => if o ∈ sub then f o else 0).sum = (sub.map f).sum := by
  intro sub
  induction sub with
  | nil =>
    intro _ _
    simp
  | cons s rest ih =>
    intro hnd hsub
    have hsr : s ∉ rest := (List.nodup_cons.mp hnd).1
    have hsplit : ∀ o ∈ K, (if o ∈ s :: rest then f o else 0) =
        (if o = s then f o else 0) + (if o ∈ rest then f o else 0) := by
      intro o _
      by_cases h1 : o = s
      · subst h1
        simp [hsr]
      · by_cases h2 : o ∈ rest
        · simp [h1, h2]
        · simp [h1, h2]
    rw [List.map_congr_left hsplit, list_sum_map_add]
    have hone : (K.map fun o => if o = s then f o else 0).sum = f s := by
      have hcongr : ∀ o ∈ K, (if o = s then f o else 0) =
          (if o = s then f s else 0) := by
        intro o _
        by_cases h : o = s
        · subst h; simp
        · simp [h]
      rw [List.map_congr_left hcongr,
        list_sum_ite_single hndK (hsub s (List.mem_cons_self _ _))]
    rw [hone, ih (List.nodup_cons.mp hnd).2
      (fun x hx => hsub x (List.mem_cons_of_mem _ hx))]
    simp

theorem list_double_count {K : List String} (hndK : K.Nodup) (f : String → ℚ)
    (origins : String → List String) :
    ∀ Q : List String,
      (∀ q ∈ Q, (origins q).Nodup) → (∀ q ∈ Q, ∀ o ∈ origins q, o ∈ K) →
      (Q.map fun q => ((origins q).map f).sum).sum =
        (K.map fun o =>
          f o * ((Q.map fun q => if o ∈ origins q then (1 : ℚ) else 0).sum)).sum := by
  intro Q
  induction Q with
  | nil =>
    intro _ _
    simp
  | cons q0 rest ih =>
    intro hnd hsub
    simp only [List.map_cons, List.sum_cons]
    rw [ih (fun x hx => hnd x (List.mem_cons_of_mem _ hx))
      (fun x hx => hsub x (List.mem_cons_of_mem _ hx))]
    have hexp : ∀ o ∈ K,
        f o * ((if o ∈ origins q0 then (1 : ℚ) else 0) +
            ((rest.map fun q => if o ∈ origins q then (1 : ℚ) else 0).sum))
          = (if o ∈ origins q0 then f o else 0) +
            f o * ((rest.map fun q => if o ∈ origins q then (1 : ℚ) else 0).sum) := by
      intro o _
      by_cases h : o ∈ origins q0
      · simp only [h, if_true]
        ring
      · simp only [h, if_false]
        ring
    rw [List.map_congr_left hexp, list_sum_map_add]
    rw [list_sum_ite_sub hndK f (origins q0) (hnd q0 (List.mem_cons_self _ _))
      (hsub q0 (List.mem_cons_self _ _))]

theorem stepValue_sum {c2 : Corpus} {lt : List (String × List String)}
    {pr : List (String × ℚ)}
    (hwf2 : WF c2) (hne : c2 ≠ [])
    (hltkeys : keysOf lt = keysOf c2)
    (hchar : ∀ l origins, lookupKey lt l = some origins → origins.Nodup ∧
       ∀ p, p ∈ origins ↔ ∃ ls, lookupKey c2 p = some ls ∧ l ∈ ls)
    (hnoempty : ∀ q ls, lookupKey c2 q = some ls → ls ≠ [])
    (hprkeys : keysOf pr = keysOf c2) (hprsum : sumVals pr = 1) (d : ℚ) :
    ((keysOf c2).map (stepValue c2 lt pr d)).sum = 1 := by
  have hN : ((c2.length : ℚ)) ≠ 0 := by
    have : 0 < c2.length := List.length_pos.mpr hne
    have h2 : c2.length ≠ 0 := by omega
    exact_mod_cast h2
  have horig : ∀ q ∈ keysOf c2, (originsOf lt q).Nodup ∧
      ∀ o ∈ originsOf lt q, o ∈ keysOf c2 := by
    intro q hq
    have : q ∈ keysOf lt := by rw [hltkeys]; exact hq
    have hsome := (lookupKey_isSome lt q).mpr this
    rcases hlk : lookupKey lt q with _ | origins
    · rw [hlk] at hsome; cases hsome
    · obtain ⟨hn, hm⟩ := hchar q origins hlk
      have : originsOf lt q = origins := by
        unfold originsOf
        rw [hlk]
        rfl
      rw [this]
      refine ⟨hn, ?_⟩
      intro o ho
      obtain ⟨ls, hls, _⟩ := (hm o).mp ho
      exact mem_keysOf_of_lookupKey hls
  unfold stepValue
  rw [list_sum_map_add, list_sum_map_const, length_keysOf]
  have hmul : ((keysOf c2).map fun q =>
      d * ((originsOf lt q).map (originSummand c2 pr)).sum).sum =
      d * ((keysOf c2).map fun q =>
        ((originsOf lt q).map (originSummand c2 pr)).sum).sum := by
    induction (keysOf c2) with
    | nil => simp
    | cons k rest ih2 => simp only [List.map_cons, List.sum_cons, ih2]; ring
  rw [hmul]
  rw [list_double_count hwf2.1 (originSummand c2 pr) (originsOf lt) (keysOf c2)
    (fun q hq => (horig q hq).1) (fun q hq => (horig q hq).2)]
  have hterm : ∀ o ∈ keysOf c2,
      originSummand c2 pr o *
        (((keysOf c2).map fun q => if o ∈ originsOf lt q then (1 : ℚ) else 0).sum) =
      (lookupKey pr o).getD 0 := by
    intro o ho
    have hsome := (lookupKey_isSome c2 o).mpr ho
    rcases hlo : lookupKey c2 o with _ | lso
    · rw [hlo] at hsome; cases hsome
    · obtain ⟨hlsnd, hlssub⟩ := WF_links hwf2 hlo
      have hiff : ∀ q ∈ keysOf c2, (o ∈ originsOf lt q ↔ q ∈ lso) := by
        intro q hq
        have : q ∈ keysOf lt := by rw [hltkeys]; exact hq
        have hsome2 := (lookupKey_isSome lt q).mpr this
        rcases hlk : lookupKey lt q with _ | origins
        · rw [hlk] at hsome2; cases hsome2
        · have heq : originsOf lt q = origins := by
            unfold originsOf
            rw [hlk]
            rfl
          rw [heq, (hchar q origins hlk).2 o]
          constructor
          · rintro ⟨ls, hls, hql⟩
            rw [hlo] at hls
            cases hls
            exact hql
          · intro hql
            exact ⟨lso, hlo, hql⟩
      have hind : (((keysOf c2).map fun q =>
          if o ∈ originsOf lt q then (1 : ℚ) else 0).sum) = (lso.length : ℚ) := by
        have hcongr : ∀ q ∈ keysOf c2,
            (if o ∈ originsOf lt q then (1 : ℚ) else 0) =
              (if q ∈ lso then (1 : ℚ) else 0) := by
          intro q hq
          by_cases h : q ∈ lso
          · simp [(hiff q hq).mpr h, h]
          · have : o ∉ originsOf lt q := fun hmem => h ((hiff q hq).mp hmem)
            simp [this, h]
        rw [List.map_congr_left hcongr,
          list_sum_ite_sub hwf2.1 (fun _ => (1 : ℚ)) lso hlsnd hlssub,
          list_sum_map_const]
        ring
      rw [hind]
      unfold originSummand
      rw [hlo]
      have hlen : ((lso.length : ℚ)) ≠ 0 := by
        have := hnoempty o lso hlo
        have h2 : lso.length ≠ 0 := fun hz => this (List.length_eq_zero.mp hz)
        exact_mod_cast h2
      field_simp
  rw [List.map_congr_left hterm]
  have hsum : ((keysOf c2).map fun o => (lookupKey pr o).getD 0).sum = 1 := by
    have hent : ∀ kv ∈ pr, kv.2 = (lookupKey pr kv.1).getD 0 := by
      intro kv hkv
      have hnd : (keysOf pr).Nodup := by rw [hprkeys]; exact hwf2.1
      rw [lookupKey_of_mem_nodup hnd hkv]
      rfl
    have h3 := @sumVals_eq_keys_sum pr (fun q => (lookupKey pr q).getD 0) hent
    rw [hprkeys] at h3
    rw [← h3]
    exact hprsum
  rw [hsum]
  field_simp

/-! ### The solver loop -/

theorem max_diff_isSome {pr w : List (String × ℚ)}
    (h : ∀ kv ∈ w, kv.1 ∈ keysOf pr) : ∃ md, max_diff pr w = some md := by
  suffices hgen : ∀ (todo : List (String × ℚ)) (acc : ℚ),
      (∀ kv ∈ todo, kv.1 ∈ keysOf pr) →
      ∃ md, todo.foldlM (fun md kv =>
        match lookupKey pr kv.1 with
        | none => none
        | some old =>
          some (if absQ (old - kv.2) > md then absQ (old - kv.2) else md)) acc =
        some md by
    exact hgen w 0 h
  intro todo
  induction todo with
  | nil =>
    intro acc _
    exact ⟨acc, rfl⟩
  | cons kv rest ih =>
    intro acc htodo
    have hsome := (lookupKey_isSome pr kv.1).mpr (htodo kv (List.mem_cons_self _ _))
    rcases hl : lookupKey pr kv.1 with _ | old
    · rw [hl] at hsome; cases hsome
    · obtain ⟨md, hmd⟩ := ih (if absQ (old - kv.2) > acc then absQ (old - kv.2) else acc)
        (fun x hx => htodo x (List.mem_cons_of_mem _ hx))
      refine ⟨md, ?_⟩
      rw [List.foldlM_cons]
      simp only [hl, Option.bind_eq_bind, Option.some_bind]
      exact hmd

theorem iterate_loop_returns_input {c2 : Corpus} {lt : List (String × List String)}
    {d : ℚ} :
    ∀ (fuel : Nat) (pr v : List (String × ℚ)),
      iterate_loop c2 lt d fuel pr = some v →
      ∃ w md, iterate_step c2 lt d v = some w ∧ max_diff v w = some md ∧
        md ≤ 1 / 1000 := by
  intro fuel
  induction fuel with
  | zero =>
    intro pr v h
    cases h
  | succ k ih =>
    intro pr v h
    unfold iterate_loop at h
    split at h
    · cases h
    · rename_i w hstep
      split at h
      · cases h
      · rename_i md hmd
        by_cases hconv : md ≤ 1 / 1000
        · rw [if_pos hconv] at h
          cases h
          exact ⟨w, md, hstep, hmd, hconv⟩
        · rw [if_neg hconv] at h
          exact ih w v h

theorem iterate_loop_inv {c2 : Corpus} {lt : List (String × List String)} {d : ℚ}
    (hstep : ∀ pr : List (String × ℚ), keysOf pr = keysOf c2 → sumVals pr = 1 →
      ∃ w, iterate_step c2 lt d pr = some w ∧ keysOf w = keysOf c2 ∧
        sumVals w = 1) :
    ∀ (fuel : Nat) (pr v : List (String × ℚ)),
      keysOf pr = keysOf c2 → sumVals pr = 1 →
      iterate_loop c2 lt d fuel pr = some v →
      keysOf v = keysOf c2 ∧ sumVals v = 1 := by
  intro fuel
  induction fuel with
  | zero =>
    intro pr v _ _ h
    cases h
  | succ k ih =>
    intro pr v hkeys hsum h
    obtain ⟨w, hw, hwkeys, hwsum⟩ := hstep pr hkeys hsum
    unfold iterate_loop at h
    split at h
    · cases h
    · rename_i w2 hstep2
      rw [hw] at hstep2
      cases hstep2
      split at h
      · cases h
      · rename_i md hmd
        by_cases hconv : md ≤ 1 / 1000
        · rw [if_pos hconv] at h
          cases h
          exact ⟨hkeys, hsum⟩
        · rw [if_neg hconv] at h
          exact ih w v hwkeys hwsum h

theorem iterate_pagerank_eq {c : Corpus} {lt : List (String × List String)}
    (hco : crawl_origin (normalize_corpus c) = some lt) (d : ℚ) (fuel : Nat) :
    iterate_pagerank c d fuel =
      (iterate_loop (normalize_corpus c) lt d fuel (init_pagerank c),
        normalize_corpus c) := by
  simp only [iterate_pagerank]
  rw [hco]

theorem init_pagerank_keys (c : Corpus) : keysOf (init_pagerank c) = keysOf c :=
  keysOf_mapShape c (fun _ => 1 / (c.length : ℚ))

theorem init_pagerank_sum {c : Corpus} (hne : c ≠ []) :
    sumVals (init_pagerank c) = 1 := by
  have hN : ((c.length : ℚ)) ≠ 0 := by
    have : 0 < c.length := List.length_pos.mpr hne
    have h2 : c.length ≠ 0 := by omega
    exact_mod_cast h2
  have h1 := sumVals_mapShape c (fun _ : String => 1 / (c.length : ℚ))
  have h2 : (((keysOf c).map (fun _ : String => 1 / (c.length : ℚ))).sum) = 1 := by
    rw [list_sum_map_const, length_keysOf]
    field_simp
  exact h1.trans h2

theorem init_pagerank_lookup {c : Corpus} {p : String} (hp : p ∈ keysOf c) :
    lookupKey (init_pagerank c) p = some (1 / (c.length : ℚ)) := by
  have := lookupKey_mapShape c (fun _ => 1 / (c.length : ℚ)) p
  unfold init_pagerank
  rw [this]
  have hsome := (lookupKey_isSome c p).mpr hp
  rcases h : lookupKey c p with _ | ls
  · rw [h] at hsome; cases hsome
  · rfl

theorem solver_step_all {c2 : Corpus} {lt : List (String × List String)}
    {pr : List (String × ℚ)} (hwf2 : WF c2) (hne2 : c2 ≠ [])
    (hltkeys : keysOf lt = keysOf c2)
    (hchar : ∀ l origins, lookupKey lt l = some origins → origins.Nodup ∧
       ∀ p, p ∈ origins ↔ ∃ ls, lookupKey c2 p = some ls ∧ l ∈ ls)
    (hnoempty : ∀ q ls, lookupKey c2 q = some ls → ls ≠ [])
    (hprkeys : keysOf pr = keysOf c2) (hprsum : sumVals pr = 1) (d : ℚ) :
    ∃ w, iterate_step c2 lt d pr = some w ∧ keysOf w = keysOf c2 ∧
      sumVals w = 1 := by
  obtain ⟨w, hw, hwkeys, hwvals⟩ := iterate_step_char d
    (solver_hcond hltkeys hchar hnoempty hprkeys) hprkeys
  refine ⟨w, hw, hwkeys, ?_⟩
  have hent : ∀ kv ∈ w, kv.2 = stepValue c2 lt pr d kv.1 := by
    intro kv hkv
    have hndw : (keysOf w).Nodup := by
      rw [hwkeys]
      exact hwf2.1
    have h1 := lookupKey_of_mem_nodup hndw hkv
    have h2 := hwvals kv.1 (by rw [← hwkeys]; exact List.mem_map_of_mem Prod.fst hkv)
    rw [h1] at h2
    exact Option.some.inj h2
  have h3 := @sumVals_eq_keys_sum w (stepValue c2 lt pr d) hent
  rw [h3, hwkeys]
  exact stepValue_sum hwf2 hne2 hltkeys hchar hnoempty hprkeys hprsum d

/-- C2: on a well-formed non-empty graph with damping factor in (0,1), both
entry points return a mapping whose keys are exactly the graph's pages and
whose values sum to 1 within the 1e-3 tolerance (the rational model gives the
sum exactly 1); for the solver this holds for every run that terminates
within its fuel. -/
theorem pagerank_outputs_keys_and_sum (c : Corpus) (d : ℚ)
    (hwf : WF c) (hne : c ≠ []) (_hd0 : 0 < d) (_hd1 : d < 1) :
    (∀ (n : Int) (initIx : Nat) (oracle : Nat → Nat), 0 < n →
      ∃ m, sample_pagerank c d n initIx oracle = some m ∧
        keysOf m = keysOf c ∧ |sumVals m - 1| ≤ 1 / 1000) ∧
    (∀ (fuel : Nat) (m : List (String × ℚ)),
      (iterate_pagerank c d fuel).1 = some m →
      keysOf m = keysOf c ∧ |sumVals m - 1| ≤ 1 / 1000) := by
  constructor
  · intro n initIx oracle hn
    obtain ⟨m, hm, hk, hs⟩ := sample_pagerank_char c d n initIx oracle hwf hne hn
    refine ⟨m, hm, hk, ?_⟩
    rw [hs]
    norm_num
  · intro fuel m hm
    have hwf2 := WF_normalize hwf
    have hne2 : normalize_corpus c ≠ [] := by
      unfold normalize_corpus
      intro h
      exact hne (List.map_eq_nil_iff.mp h)
    obtain ⟨lt, hco, hltk, hchar⟩ := crawl_origin_char hwf2
    have hm2 : iterate_loop (normalize_corpus c) lt d fuel (init_pagerank c) =
        some m := by
      rw [iterate_pagerank_eq hco d fuel] at hm
      exact hm
    have hkeys2 : keysOf (normalize_corpus c) = keysOf c := keysOf_normalize c
    have hloopinv := iterate_loop_inv
      (fun pr hk hs => solver_step_all hwf2 hne2 hltk hchar
        (fun q ls hq => normalize_links_ne_nil hne hq) hk hs d)
      fuel (init_pagerank c) m
      (by rw [init_pagerank_keys, hkeys2])
      (init_pagerank_sum hne)
      hm2
    refine ⟨by rw [hloopinv.1, hkeys2], ?_⟩
    rw [hloopinv.2]
    norm_num

theorem list_sum_eq_of_mem_iff {l1 l2 : List String} (h1 : l1.Nodup)
    (h2 : l2.Nodup) (hm : ∀ x, x ∈ l1 ↔ x ∈ l2) (f : String → ℚ) :
    (l1.map f).sum = (l2.map f).sum := by
  have hp : l1.Perm l2 := (List.perm_ext_iff_of_nodup h1 h2).mpr hm
  exact (hp.map f).sum_eq

theorem stepValue_eq_specNewRank {c2 : Corpus} {lt : List (String × List String)}
    {pr : List (String × ℚ)} (hwf2 : WF c2)
    (hltkeys : keysOf lt = keysOf c2)
    (hchar : ∀ l origins, lookupKey lt l = some origins → origins.Nodup ∧
       ∀ p, p ∈ origins ↔ ∃ ls, lookupKey c2 p = some ls ∧ l ∈ ls)
    (d : ℚ) (p : String) (hp : p ∈ keysOf c2) :
    stepValue c2 lt pr d p = specNewRank c2 d pr p := by
  have hpl : p ∈ keysOf lt := by
    rw [hltkeys]
    exact hp
  have hsome := (lookupKey_isSome lt p).mpr hpl
  rcases hlk : lookupKey lt p with _ | origins
  · rw [hlk] at hsome; cases hsome
  · have heq : originsOf lt p = origins := by
      unfold originsOf
      rw [hlk]
      rfl
    obtain ⟨hnd, hm⟩ := hchar p origins hlk
    unfold stepValue specNewRank
    congr 1
    congr 1
    rw [heq]
    have hiff : ∀ x, x ∈ origins ↔
        x ∈ (keysOf c2).filter (fun o => decide (p ∈ (lookupKey c2 o).getD [])) := by
      intro x
      rw [hm x, List.mem_filter]
      constructor
      · rintro ⟨ls, hls, hpls⟩
        refine ⟨mem_keysOf_of_lookupKey hls, ?_⟩
        rw [hls]
        simpa using hpls
      · rintro ⟨hx, hdec⟩
        have hsome2 := (lookupKey_isSome c2 x).mpr hx
        rcases hlx : lookupKey c2 x with _ | ls
        · rw [hlx] at hsome2; cases hsome2
        · refine ⟨ls, rfl, ?_⟩
          rw [hlx] at hdec
          simpa using hdec
    exact list_sum_eq_of_mem_iff hnd (hwf2.1.filter _) hiff (originSummand c2 pr)

/-- C5: each solver round, computed synchronously from the previous round's
full vector `pr`, writes for every page `p` exactly
`(1-d)/N + d * Σ over origins o of p of pr(o)/outdegree(o)`, with origins and
out-degrees taken in the sink-normalized graph; and the initial vector
assigns `1/N` to every page. -/
theorem iterate_round_matches_update_rule (c : Corpus) (d : ℚ)
    (hwf : WF c) {lt : List (String × List String)}
    (hco : crawl_origin (normalize_corpus c) = some lt)
    (pr : List (String × ℚ)) (hprkeys : keysOf pr = keysOf c) :
    (∀ p ∈ keysOf c, lookupKey (init_pagerank c) p = some (1 / (c.length : ℚ))) ∧
    ∃ w, iterate_step (normalize_corpus c) lt d pr = some w ∧
      ∀ p ∈ keysOf c, lookupKey w p =
        some (specNewRank (normalize_corpus c) d pr p) := by
  have hwf2 := WF_normalize hwf
  obtain ⟨lt0, hco0, hltk, hchar⟩ := crawl_origin_char hwf2
  have hlteq : lt0 = lt := Option.some.inj (hco0.symm.trans hco)
  subst hlteq
  have hprkeys2 : keysOf pr = keysOf (normalize_corpus c) := by
    rw [keysOf_normalize]
    exact hprkeys
  refine ⟨fun p hp => init_pagerank_lookup hp, ?_⟩
  obtain ⟨w, hw, hwkeys, hwvals⟩ := iterate_step_char d
    (solver_hcond hltk hchar
      (fun q ls hq => by
        rcases hc : c with _ | ⟨kv, rest⟩
        · subst hc; cases hq
        · exact normalize_links_ne_nil (by simp [hc]) (hc ▸ hq)) hprkeys2)
    hprkeys2
  refine ⟨w, hw, ?_⟩
  intro p hp
  have hp2 : p ∈ keysOf (normalize_corpus c) := by
    rw [keysOf_normalize]
    exact hp
  rw [hwvals p hp2, stepValue_eq_specNewRank hwf2 hltk hchar d p hp2]

/-- C8: in the solver's summation over a well-formed non-empty graph, every
out-degree denominator read from the normalized corpus is at least 1, so the
division-by-zero branch is unreachable; and on any corpus in which a zero
out-degree is reached, the summand evaluation fails (Python's uncaught
ZeroDivisionError, `none` in the embedding) instead of substituting a
fallback denominator. -/
theorem iterate_denominators_positive (c : Corpus) (hwf : WF c) (hne : c ≠ [])
    {lt : List (String × List String)}
    (hco : crawl_origin (normalize_corpus c) = some lt) :
    (∀ p origins, lookupKey lt p = some origins → ∀ o ∈ origins,
      ∃ ls, lookupKey (normalize_corpus c) o = some ls ∧ 1 ≤ ls.length) ∧
    (∀ (c0 : Corpus) (pr : List (String × ℚ)) (o : String) (r : ℚ)
      (ls : List String),
      lookupKey pr o = some r → lookupKey c0 o = some ls →
      ls.length = 0 → origin_term c0 pr o = none) := by
  have hwf2 := WF_normalize hwf
  obtain ⟨lt0, hco0, hltk, hchar⟩ := crawl_origin_char hwf2
  have hlteq : lt0 = lt := Option.some.inj (hco0.symm.trans hco)
  subst hlteq
  constructor
  · intro p origins hlk o ho
    obtain ⟨ls, hls, _⟩ := ((hchar p origins hlk).2 o).mp ho
    refine ⟨ls, hls, ?_⟩
    have := normalize_links_ne_nil hne hls
    have h2 : ls.length ≠ 0 := fun hz => this (List.length_eq_zero.mp hz)
    omega
  · intro c0 pr o r ls h1 h2 h3
    simp [origin_term, h1, h2, h3]

/-- C1 (amended): when the convergence check fires, the loop breaks before
`pagerank = pagerank_working` executes, so `iterate_pagerank` returns the
vector the converging round started from — the previous round's vector `v`,
for which the newly computed vector `w` of that round satisfies
`max_diff v w ≤ 0.001` — not the newly computed vector `w` itself. -/
theorem iterate_pagerank_returns_previous (c : Corpus) (d : ℚ) (fuel : Nat)
    (v : List (String × ℚ)) {lt : List (String × List String)}
    (hco : crawl_origin (normalize_corpus c) = some lt)
    (h : (iterate_pagerank c d fuel).1 = some v) :
    ∃ w md, iterate_step (normalize_corpus c) lt d v = some w ∧
      max_diff v w = some md ∧ md ≤ 1 / 1000 := by
  have h2 : iterate_loop (normalize_corpus c) lt d fuel (init_pagerank c) =
      some v := by
    rw [iterate_pagerank_eq hco d fuel] at h
    exact h
  exact iterate_loop_returns_input fuel (init_pagerank c) v h2

/-- C4 fails in the code (`pagerank.py` lines 134-136 rebind `corpus[pages]`
in place): after `iterate_pagerank` on the one-sink graph `{A: {}}`, the
caller's corpus dict reads `{A: {A}}` — the sink normalization is visible to
any later user of the same graph instance, e.g. the sampler. -/
theorem iterate_pagerank_mutates_caller_corpus :
    (iterate_pagerank [("A", ([] : List String))] (17/20) 10).2 =
      [("A", ["A"])] ∧
    (iterate_pagerank [("A", ([] : List String))] (17/20) 10).2 ≠
      [("A", ([] : List String))] := by
  have h : (iterate_pagerank [("A", ([] : List String))] (17/20) 10).2 =
      [("A", ["A"])] := by
    simp [iterate_pagerank, normalize_corpus, crawl_origin, addOrigin, mapAtKey,
      lookupKey, keysOf, edgeList]
  refine ⟨h, ?_⟩
  rw [h]
  simp

/-- C1 counterexample: on the graph `{A:{B}, B:{A}, C:{A}}` with damping
factor 1/10 the loop converges on its third round: the round starts from
`v = (109/300, 101/300, 3/10)` and computes `w = (1091/3000, 1009/3000, 3/10)`
with `max_diff = 1/3000 ≤ 0.001` — and `iterate_pagerank` returns `v`, the
previous round's vector, not the newly computed vector `w` of that round,
although `v ≠ w`. -/
theorem iterate_pagerank_convergence_cex :
    (iterate_pagerank [("A", ["B"]), ("B", ["A"]), ("C", ["A"])] (1/10) 3).1 =
      some [("A", 109/300), ("B", 101/300), ("C", 3/10)] ∧
    crawl_origin (normalize_corpus [("A", ["B"]), ("B", ["A"]), ("C", ["A"])]) =
      some [("A", ["B", "C"]), ("B", ["A"]), ("C", [])] ∧
    iterate_step (normalize_corpus [("A", ["B"]), ("B", ["A"]), ("C", ["A"])])
      [("A", ["B", "C"]), ("B", ["A"]), ("C", [])] (1/10)
      [("A", 109/300), ("B", 101/300), ("C", 3/10)] =
      some [("A", 1091/3000), ("B", 1009/3000), ("C", 3/10)] ∧
    max_diff [("A", (109 : ℚ)/300), ("B", 101/300), ("C", 3/10)]
      [("A", 1091/3000), ("B", 1009/3000), ("C", 3/10)] = some (1/3000) ∧
    ((1 : ℚ)/3000 ≤ 1/1000) ∧
    ([("A", (109 : ℚ)/300), ("B", 101/300), ("C", 3/10)] ≠
      [("A", 1091/3000), ("B", 1009/3000), ("C", 3/10)]) := by
  refine ⟨?_, ?_, ?_, ?_, by norm_num, ?_⟩
  · simp [iterate_pagerank, normalize_corpus, crawl_origin, addOrigin, mapAtKey,
      lookupKey, keysOf, iterate_loop, iterate_step, second_sum, origin_term,
      setKey, max_diff, absQ, init_pagerank, edgeList]
    norm_num
  · simp [normalize_corpus, crawl_origin, addOrigin, mapAtKey, lookupKey,
      keysOf, edgeList]
  · simp [normalize_corpus, iterate_step, second_sum, origin_term, setKey,
      mapAtKey, lookupKey, keysOf]
    norm_num
  · simp [max_diff, lookupKey, absQ]
    norm_num
  · simp only [ne_eq, List.cons.injEq, Prod.mk.injEq]
    norm_num

/-- Closed witness for the amended C1 theorem at the same concrete run. -/
theorem iterate_pagerank_returns_previous_witness :
    ∃ w md,
      iterate_step (normalize_corpus [("A", ["B"]), ("B", ["A"]), ("C", ["A"])])
        [("A", ["B", "C"]), ("B", ["A"]), ("C", [])] (1/10)
        [("A", 109/300), ("B", 101/300), ("C", 3/10)] = some w ∧
      max_diff [("A", (109 : ℚ)/300), ("B", 101/300), ("C", 3/10)] w = some md ∧
      md ≤ 1 / 1000 :=
  iterate_pagerank_returns_previous [("A", ["B"]), ("B", ["A"]), ("C", ["A"])]
    (1/10) 3 [("A", 109/300), ("B", 101/300), ("C", 3/10)]
    (by simp [normalize_corpus, crawl_origin, addOrigin, mapAtKey, lookupKey,
      keysOf, edgeList])
    (by
      simp [iterate_pagerank, normalize_corpus, crawl_origin, addOrigin,
        mapAtKey, lookupKey, keysOf, iterate_loop, iterate_step, second_sum,
        origin_term, setKey, max_diff, absQ, init_pagerank, edgeList]
      norm_num)

/-- Closed witness for C2 on the 2-cycle graph: the sampler run and the
converged solver output both carry the graph's keys and unit sum. -/
theorem pagerank_outputs_keys_and_sum_witness :
    (∃ m, sample_pagerank [("A", ["B"]), ("B", ["A"])] (17/20) 3 0
        (fun _ => 0) = some m ∧
      keysOf m = keysOf ([("A", ["B"]), ("B", ["A"])] : Corpus) ∧
      |sumVals m - 1| ≤ 1 / 1000) ∧
    (keysOf [("A", (1 : ℚ)/2), ("B", 1/2)] =
        keysOf ([("A", ["B"]), ("B", ["A"])] : Corpus) ∧
      |sumVals [("A", (1 : ℚ)/2), ("B", 1/2)] - 1| ≤ 1 / 1000) := by
  have h := pagerank_outputs_keys_and_sum [("A", ["B"]), ("B", ["A"])] (17/20)
    (by decide) (by simp) (by norm_num) (by norm_num)
  refine ⟨h.1 3 0 (fun _ => 0) (by norm_num), ?_⟩
  apply h.2 1
  simp [iterate_pagerank, normalize_corpus, crawl_origin, addOrigin, mapAtKey,
    lookupKey, keysOf, iterate_loop, iterate_step, second_sum, origin_term,
    setKey, max_diff, absQ, init_pagerank, edgeList]
  norm_num

/-- Closed witness for C5 on the 2-cycle graph at the vector (1/2, 1/2). -/
theorem iterate_round_matches_update_rule_witness :
    (∀ p ∈ keysOf ([("A", ["B"]), ("B", ["A"])] : Corpus),
      lookupKey (init_pagerank [("A", ["B"]), ("B", ["A"])]) p =
        some (1 / ((([("A", ["B"]), ("B", ["A"])] : Corpus).length : ℚ)))) ∧
    ∃ w, iterate_step (normalize_corpus [("A", ["B"]), ("B", ["A"])])
        [("A", ["B"]), ("B", ["A"])] (17/20)
        [("A", (1 : ℚ)/2), ("B", 1/2)] = some w ∧
      ∀ p ∈ keysOf ([("A", ["B"]), ("B", ["A"])] : Corpus),
        lookupKey w p =
          some (specNewRank (normalize_corpus [("A", ["B"]), ("B", ["A"])])
            (17/20) [("A", (1 : ℚ)/2), ("B", 1/2)] p) :=
  iterate_round_matches_update_rule [("A", ["B"]), ("B", ["A"])] (17/20)
    (by decide)
    (by simp [normalize_corpus, crawl_origin, addOrigin, mapAtKey, lookupKey,
      keysOf, edgeList])
    [("A", (1 : ℚ)/2), ("B", 1/2)] (by simp [keysOf])

/-- Closed witness for C8: the first conjunct on the sink graph
`{A: {B}, B: {}}`, and the second at a concrete zero-out-degree summand —
`origin_term` on the un-normalized corpus `{A: {}}` evaluates to the error,
not to a value with a fallback denominator. -/
theorem iterate_denominators_positive_witness :
    (∀ p origins,
      lookupKey [("A", ["B"]), ("B", ["A", "B"])] p = some origins →
      ∀ o ∈ origins, ∃ ls,
        lookupKey (normalize_corpus [("A", ["B"]), ("B", [])]) o = some ls ∧
        1 ≤ ls.length) ∧
    origin_term [("A", ([] : List String))] [("A", (0 : ℚ))] "A" = none := by
  have h := @iterate_denominators_positive [("A", ["B"]), ("B", [])] (by decide)
    (by simp) [("A", ["B"]), ("B", ["A", "B"])]
    (by simp [normalize_corpus, crawl_origin, addOrigin, mapAtKey, lookupKey,
      keysOf, edgeList])
  exact ⟨h.1, h.2 [("A", ([] : List String))] [("A", (0 : ℚ))] "A" 0 []
    (by simp [lookupKey]) (by simp [lookupKey]) rfl⟩
